import Mathlib

/-!
Shallow embedding of the measurement conversion and collision-avoidance
algorithm of src/scripts/convert_tag_to_field.py (function
convert_measurement), together with proofs about it.

Modelling choices:
  * a raw InfluxDB value is either null, a string, or an integer (Val);
  * np.datetime64 timestamps are modelled as Int microsecond ticks; the
    perturbation by one microsecond at line 129 is +1 on that Int;
  * Python dicts are modelled as association lists with first-match lookup
    and overwrite-in-place insertion (dictInsert), which preserves the
    insertion-order semantics of Python dicts;
  * the raw point dict is a time value plus the list of its other entries;
    the key "time" is never a declared tag key of any measurement in the
    schema table, so the membership test for tag keys looks only at the
    non-time entries;
  * Python str() on these values: str(None) = "None", str on an int is its
    decimal form, str on a string is the string itself;
  * the unbounded while loop of the source is given explicit fuel; a fuel
    value that provably suffices (one more than the size of the seen set)
    is used at the call site, and running out of fuel is a distinguished
    error value that is proved unreachable.
-/

/-- Raw value of a data point entry, as returned by the InfluxDB query. -/
inductive Val where
  | vNull : Val
  | vStr : String → Val
  | vInt : Int → Val
deriving DecidableEq, Repr

/-- Python str() of a raw value. -/
def valStr : Val → String
  | .vNull => "None"
  | .vStr s => s
  | .vInt n => toString n

/-- Declared type of a field in the field_keys table (int, float or str). -/
inductive FType where
  | tInt : FType
  | tFloat : FType
  | tStr : FType
deriving DecidableEq, Repr

/-- Value of a field after coercion to its declared type. Float values are
kept symbolically as the raw value they were coerced from; no claim inspects
float arithmetic. -/
inductive FieldVal where
  | fInt : Int → FieldVal
  | fFloat : Val → FieldVal
  | fStr : String → FieldVal
deriving DecidableEq, Repr

/-- Recognizer for strings accepted by Python float(), approximated as an
optional integer part and an optional fractional part. -/
def isFloatLit (s : String) : Bool :=
  match s.splitOn "." with
  | [a] => a.toInt?.isSome
  | [a, b] => a.toInt?.isSome && !b.isEmpty && b.all Char.isDigit
  | _ => false

/-- Coercion of a raw value to a declared field type, mirroring the call
field_keys[measurement_name][k](pt[pt_k]) in the source; none models an
uncaught coercion exception. -/
def coerce : FType → Val → Option FieldVal
  | .tInt, .vInt n => some (.fInt n)
  | .tInt, .vStr s => s.toInt?.map FieldVal.fInt
  | .tInt, .vNull => none
  | .tFloat, .vInt n => some (.fFloat (.vInt n))
  | .tFloat, .vStr s => if isFloatLit s then some (.fFloat (.vStr s)) else none
  | .tFloat, .vNull => none
  | .tStr, v => some (.fStr (valStr v))

/-- Raw data point: the time entry plus the remaining key-value entries of
the dict, in iteration order. -/
structure RawPoint where
  time : Int
  kvs : List (String × Val)
deriving DecidableEq, Repr

/-- Dedup key: the series tuple built at lines 97-113 of the source, with
the timestamp in field t and the tag values (schema order) in field tags. -/
structure Key where
  t : Int
  tags : List String
deriving DecidableEq, Repr

/-- Emitted point, as appended to json_body at lines 161-166. The time is
kept as the resolved Int tick rather than its string rendering; rendering
of np.datetime64 values is injective on ticks. -/
structure OutPoint where
  measurement : String
  time : Int
  tags : List (String × String)
  fields : List (String × FieldVal)
deriving DecidableEq, Repr

/-- Fatal outcomes of the conversion. The source calls sys.exit for the
first three; typeCoercion models an uncaught exception from int()/float();
unknownMeasurement models the KeyError on a measurement absent from the
schema tables; fuelExhausted is the artefact of making the while loop
structural and is proved unreachable. -/
inductive ConvError where
  | missingDeclaredTag : String → ConvError
  | unresolvableCollision : String → ConvError
  | unclassifiableKey : String → ConvError
  | typeCoercion : String → ConvError
  | unknownMeasurement : String → ConvError
  | fuelExhausted : ConvError
deriving DecidableEq, Repr

/-- Declared tag keys per measurement (the tag_keys table, lines 23-36). -/
def tag_keys : String → Option (List String)
  | "active_streams" => some ["channel", "server_id"]
  | "backlog" => some ["channel"]
  | "channel_status" => some ["channel"]
  | "client_buffer" => some ["channel", "server_id"]
  | "client_error" => some []
  | "client_sysinfo" => some ["server_id"]
  | "decoder_info" => some ["channel"]
  | "server_info" => some ["server_id"]
  | "ssim" => some ["channel", "format"]
  | "video_acked" => some ["channel", "server_id"]
  | "video_sent" => some ["channel", "server_id"]
  | "video_size" => some ["channel", "format"]
  | _ => none

/-- Declared field keys and their types per measurement (the field_keys
table, lines 38-82). -/
def field_keys : String → Option (List (String × FType))
  | "active_streams" => some [("count", .tInt), ("expt_id", .tInt)]
  | "backlog" => some [("canonical_cnt", .tInt), ("working_cnt", .tInt)]
  | "channel_status" => some [("selected_rate", .tFloat), ("snr", .tFloat)]
  | "client_buffer" => some [("buffer", .tFloat), ("cum_rebuf", .tFloat),
      ("event", .tStr), ("expt_id", .tInt), ("init_id", .tInt), ("user", .tStr)]
  | "client_error" => some [("error", .tStr), ("init_id", .tInt), ("user", .tStr)]
  | "client_sysinfo" => some [("browser", .tStr), ("expt_id", .tInt),
      ("init_id", .tInt), ("ip", .tStr), ("os", .tStr),
      ("screen_height", .tInt), ("screen_width", .tInt), ("user", .tStr)]
  | "decoder_info" => some [("due", .tInt), ("filler_fields", .tInt), ("timestamp", .tInt)]
  | "server_info" => some [("server_id_1", .tInt)]
  | "ssim" => some [("ssim_index", .tFloat), ("timestamp", .tInt)]
  | "video_acked" => some [("buffer", .tFloat), ("cum_rebuffer", .tFloat),
      ("expt_id", .tInt), ("init_id", .tInt), ("ssim_index", .tFloat),
      ("user", .tStr), ("video_ts", .tInt)]
  | "video_sent" => some [("buffer", .tFloat), ("cum_rebuffer", .tFloat),
      ("cwnd", .tInt), ("delivery_rate", .tInt), ("expt_id", .tInt),
      ("format", .tStr), ("in_flight", .tInt), ("init_id", .tInt),
      ("min_rtt", .tInt), ("rtt", .tInt), ("size", .tInt),
      ("ssim_index", .tFloat), ("user", .tStr), ("video_ts", .tInt)]
  | "video_size" => some [("size", .tInt), ("timestamp", .tInt)]
  | _ => none

/-- Membership of a measurement in the set for which a missing server_id is
tolerated and for which the timestamp must never be shifted (lines 104-107
and 124-126). -/
def inNoShiftSet (m : String) : Bool :=
  m = "client_buffer" || m = "video_sent" || m = "video_acked"

/-- Python dict assignment d[k] = v on an association list: overwrite the
value in place if the key exists, else append the new entry. -/
def dictInsert {α : Type} : List (String × α) → String → α → List (String × α)
  | [], k, v => [(k, v)]
  | (k', v') :: rest, k, v =>
    if k' = k then (k, v) :: rest else (k', v') :: dictInsert rest k v

/-- Building of the series tag values (lines 98-113): walk the declared tag
keys in schema order, appending str of the present value, or handling the
permitted missing server_id by substituting the synthetic value 1 and
recording its slot. Returns the tag values and the optional synthetic slot
as (index into the tag value list, current synthetic value). -/
def buildTagVals (m : String) (pt : RawPoint) :
    List String → List String → Option (Nat × Nat) →
    Except ConvError (List String × Option (Nat × Nat))
  | [], vals, fake => .ok (vals, fake)
  | tk :: rest, vals, fake =>
    match pt.kvs.lookup tk with
    | some v => buildTagVals m pt rest (vals ++ [valStr v]) fake
    | none =>
      if tk ≠ "server_id" ∨ ¬ inNoShiftSet m then
        .error (.missingDeclaredTag tk)
      else
        buildTagVals m pt rest (vals ++ ["1"]) (some (vals.length, 1))

/-- Collision resolution loop (lines 116-129): while the candidate key is
in the seen set, either bump the synthetic server_id and rewrite its slot,
or, with no synthetic slot, fatally abort for the no-shift measurements and
otherwise advance the timestamp by one tick. The fuel argument makes the
loop structural; fuelExhausted is proved unreachable for the fuel used at
the call site. -/
def resolveLoop (m : String) (seen : List Key) :
    Nat → Key → Option (Nat × Nat) → Except ConvError (Key × Option Nat)
  | 0, _, _ => .error .fuelExhausted
  | fuel + 1, k, fake =>
    if k ∈ seen then
      match fake with
      | some (idx, fv) =>
          resolveLoop m seen fuel ⟨k.t, k.tags.set idx (toString (fv + 1))⟩
            (some (idx, fv + 1))
      | none =>
          if inNoShiftSet m then .error (.unresolvableCollision m)
          else resolveLoop m seen fuel ⟨k.t + 1, k.tags⟩ none
    else .ok (k, fake.map (·.2))

/-- Classification of the remaining keys (lines 141-159): skip the time
entry and null values, normalize the key name (strip a trailing _1 except
for server_info), then route the value into tags or fields, or abort. -/
def normKey (m : String) (k : String) : String :=
  if m ≠ "server_info" ∧ k.takeRight 2 = "_1" then k.dropRight 2 else k

def classify (m : String) (tks : List String) (fks : List (String × FType)) :
    List (String × Val) → List (String × String) → List (String × FieldVal) →
    Except ConvError (List (String × String) × List (String × FieldVal))
  | [], tags, fields => .ok (tags, fields)
  | (k, v) :: rest, tags, fields =>
    if k = "time" then classify m tks fks rest tags fields
    else if v = .vNull then classify m tks fks rest tags fields
    else if normKey m k ∈ tks then
      classify m tks fks rest (dictInsert tags (normKey m k) (valStr v)) fields
    else
      match fks.lookup (normKey m k) with
      | some ty =>
        match coerce ty v with
        | some fv => classify m tks fks rest tags (dictInsert fields (normKey m k) fv)
        | none => .error (.typeCoercion (normKey m k))
      | none => .error (.unclassifiableKey (normKey m k))

/-- Conversion of one raw point against the seen set: build the candidate
dedup key, resolve collisions, seed the tags with the synthetic server_id
when one was assigned (lines 138-139), then classify the entries. Returns
the committed dedup key together with the emitted point. -/
def initTags (fv : Option Nat) : List (String × String) :=
  match fv with
  | some v => [("server_id", toString v)]
  | none => []

def convertPoint (m : String) (tks : List String) (fks : List (String × FType))
    (seen : List Key) (pt : RawPoint) : Except ConvError (Key × OutPoint) :=
  match buildTagVals m pt tks [] none with
  | .error e => .error e
  | .ok (vals, fake) =>
    match resolveLoop m seen (seen.length + 1) ⟨pt.time, vals⟩ fake with
    | .error e => .error e
    | .ok (key, fv) =>
      match classify m tks fks pt.kvs (initTags fv) [] with
      | .error e => .error e
      | .ok (tags, fields) => .ok (key, ⟨m, key.t, tags, fields⟩)

/-- Conversion of a stream of raw points, threading the seen set exactly as
dup_check is threaded through the for loop of the source. -/
def convertGo (m : String) (tks : List String) (fks : List (String × FType)) :
    List RawPoint → List Key → Except ConvError (List (Key × OutPoint))
  | [], _ => .ok []
  | pt :: rest, seen =>
    match convertPoint m tks fks seen pt with
    | .error e => .error e
    | .ok (key, o) =>
      match convertGo m tks fks rest (key :: seen) with
      | .error e => .error e
      | .ok l => .ok ((key, o) :: l)

/-- Conversion of one whole measurement, keeping the committed dedup key of
each emitted point. -/
def convertMeasurementK (m : String) (pts : List RawPoint) :
    Except ConvError (List (Key × OutPoint)) :=
  match tag_keys m, field_keys m with
  | some tks, some fks => convertGo m tks fks pts []
  | _, _ => .error (.unknownMeasurement m)

/-- convert_measurement (lines 85-173), restricted to its pure core: the
list of emitted points, or the fatal error. Batching to the sink every 1000
points does not alter the emitted sequence and is omitted. -/
def convertMeasurement (m : String) (pts : List RawPoint) :
    Except ConvError (List OutPoint) :=
  (convertMeasurementK m pts).map (List.map (·.2))

/-- Dedup key recomputed from an emitted point, as the destination store
sees it: the time and the looked-up tag values in schema tag-key order. -/
def outDedupKey (tks : List String) (o : OutPoint) : Int × List (Option String) :=
  (o.time, tks.map (fun tk => o.tags.lookup tk))

/-!
Injectivity of the decimal rendering of natural numbers, needed because the
collision loop distinguishes synthetic server_id values through their
string forms. Proved by evaluating the digit list back to the number.
-/

/-- Reference decimal digit list of a natural number. -/
def decDigits (n : Nat) : List Char :=
  if _h : n < 10 then [Nat.digitChar n]
  else decDigits (n / 10) ++ [Nat.digitChar (n % 10)]
  termination_by n
  decreasing_by exact Nat.div_lt_self (by omega) (by omega)

/-- Numeric value of a digit character. -/
def chVal (c : Char) : Nat := c.toNat - 48

theorem chVal_digitChar : ∀ d, d < 10 → chVal (Nat.digitChar d) = d := by decide

theorem toDigitsCore_eq_decDigits :
    ∀ (fuel n : Nat) (ds : List Char), n < fuel →
      Nat.toDigitsCore 10 fuel n ds = decDigits n ++ ds := by
  intro fuel
  induction fuel with
  | zero => intro n ds h; exact absurd h (Nat.not_lt_zero n)
  | succ f ih =>
    intro n ds h
    by_cases h10 : n < 10
    · have hdiv : n / 10 = 0 := Nat.div_eq_of_lt h10
      have hmod : n % 10 = n := Nat.mod_eq_of_lt h10
      rw [decDigits]
      simp [Nat.toDigitsCore, hdiv, hmod, h10]
    · have hdiv : ¬ n / 10 = 0 := by
        intro h0
        have := (Nat.div_eq_zero_iff (by omega : 0 < 10)).mp h0
        omega
      have hlt : n / 10 < f := by
        have h1 : n / 10 < n := Nat.div_lt_self (by omega) (by omega)
        omega
      rw [decDigits]
      simp only [Nat.toDigitsCore, hdiv, if_false, dif_neg h10]
      rw [ih (n / 10) (Nat.digitChar (n % 10) :: ds) hlt]
      simp

theorem decDigits_foldl (n : Nat) : ∀ (a : Nat),
    List.foldl (fun a c => a * 10 + chVal c) a (decDigits n) =
      a * 10 ^ (decDigits n).length + n := by
  induction n using Nat.strong_induction_on with
  | _ n ih =>
    intro a
    by_cases h : n < 10
    · rw [decDigits]
      simp [h, chVal_digitChar n h]
    · have hd : n / 10 < n := Nat.div_lt_self (by omega) (by omega)
      rw [decDigits]
      simp only [dif_neg h, List.foldl_append, List.length_append, List.foldl_cons,
        List.foldl_nil, List.length_cons, List.length_nil]
      rw [ih (n / 10) hd a]
      rw [chVal_digitChar (n % 10) (Nat.mod_lt _ (by omega))]
      have hpow : a * 10 ^ ((decDigits (n / 10)).length + (0 + 1)) =
          a * 10 ^ (decDigits (n / 10)).length * 10 := by ring
      rw [hpow]
      have := Nat.div_add_mod n 10
      ring_nf
      omega

theorem decDigits_inj {m n : Nat} (h : decDigits m = decDigits n) : m = n := by
  have hm := decDigits_foldl m 0
  have hn := decDigits_foldl n 0
  rw [h] at hm
  simp only [Nat.zero_mul, Nat.zero_add] at hm hn
  omega

theorem natToString_inj {m n : Nat} (h : toString m = toString n) : m = n := by
  have h2 : Nat.repr m = Nat.repr n := h
  unfold Nat.repr at h2
  have h3 : Nat.toDigits 10 m = Nat.toDigits 10 n := congrArg String.data h2
  unfold Nat.toDigits at h3
  rw [toDigitsCore_eq_decDigits (m + 1) m [] (Nat.lt_succ_self m),
      toDigitsCore_eq_decDigits (n + 1) n [] (Nat.lt_succ_self n)] at h3
  simp only [List.append_nil] at h3
  exact decDigits_inj h3

/-!
Small helper lemmas about lists and the dict model.
-/

theorem set_of_getElem?_eq {α : Type} :
    ∀ (l : List α) (i : Nat) (a : α), l[i]? = some a → l.set i a = l
  | [], i, a, h => by simp at h
  | x :: xs, 0, a, h => by
    simp only [List.getElem?_cons_zero, Option.some.injEq] at h
    simp [List.set, h]
  | x :: xs, i + 1, a, h => by
    simp only [List.getElem?_cons_succ] at h
    simp [List.set, set_of_getElem?_eq xs i a h]

theorem nodup_subset_length {α : Type} [DecidableEq α] {l l' : List α}
    (hn : l.Nodup) (hs : ∀ x ∈ l, x ∈ l') : l.length ≤ l'.length := by
  calc l.length = l.toFinset.card := (List.toFinset_card_of_nodup hn).symm
    _ ≤ l'.toFinset.card := Finset.card_le_card (by
        intro x hx
        exact List.mem_toFinset.mpr (hs x (List.mem_toFinset.mp hx)))
    _ ≤ l'.length := List.toFinset_card_le l'

theorem lookup_cons_if {α : Type} (k0 k : String) (v0 : α) (rest : List (String × α)) :
    ((k0, v0) :: rest).lookup k = if k = k0 then some v0 else rest.lookup k := by
  rw [List.lookup_cons]
  by_cases h : k = k0
  · simp [h]
  · simp [beq_eq_false_iff_ne.mpr h, h]

theorem dictInsert_lookup {α : Type} :
    ∀ (l : List (String × α)) (k k' : String) (v : α),
      (dictInsert l k v).lookup k' = if k' = k then some v else l.lookup k'
  | [], k, k', v => by
    simp only [dictInsert, lookup_cons_if, List.lookup_nil]
  | (k0, v0) :: rest, k, k', v => by
    simp only [dictInsert]
    by_cases h0 : k0 = k
    · subst h0
      simp only [if_pos rfl, lookup_cons_if]
      by_cases h : k' = k0 <;> simp [lookup_cons_if, h]
    · simp only [if_neg h0, lookup_cons_if, dictInsert_lookup rest k k' v]
      split_ifs with ha hb <;> simp_all

theorem dictInsert_mem {α : Type} :
    ∀ (l : List (String × α)) (k : String) (v : α) (p : String × α),
      p ∈ dictInsert l k v → p.1 = k ∨ p ∈ l
  | [], k, v, p => by
    simp only [dictInsert, List.mem_singleton]
    intro h; subst h; exact Or.inl rfl
  | (k0, v0) :: rest, k, v, p => by
    simp only [dictInsert]
    by_cases h0 : k0 = k
    · rw [if_pos h0]
      intro h
      rcases List.mem_cons.mp h with h | h
      · subst h; exact Or.inl rfl
      · exact Or.inr (List.mem_cons_of_mem _ h)
    · rw [if_neg h0]
      intro h
      rcases List.mem_cons.mp h with h | h
      · subst h; exact Or.inr (List.mem_cons_self _ _)
      · rcases dictInsert_mem rest k v p h with h | h
        · exact Or.inl h
        · exact Or.inr (List.mem_cons_of_mem _ h)

theorem dictInsert_key_mem {α : Type} :
    ∀ (l : List (String × α)) (k : String) (v : α),
      k ∈ (dictInsert l k v).map Prod.fst
  | [], k, v => by simp [dictInsert]
  | (k0, v0) :: rest, k, v => by
    simp only [dictInsert]
    by_cases h0 : k0 = k
    · rw [if_pos h0]; simp
    · rw [if_neg h0]
      simp only [List.map_cons, List.mem_cons]
      exact Or.inr (dictInsert_key_mem rest k v)

theorem dictInsert_key_mono {α : Type} :
    ∀ (l : List (String × α)) (k : String) (v : α) (x : String),
      x ∈ l.map Prod.fst → x ∈ (dictInsert l k v).map Prod.fst
  | [], _, _, _ => by simp
  | (k0, v0) :: rest, k, v, x => by
    simp only [dictInsert, List.map_cons, List.mem_cons]
    intro hx
    by_cases h0 : k0 = k
    · rw [if_pos h0]
      rcases hx with hx | hx
      · subst h0; simp [hx]
      · simp only [List.map_cons, List.mem_cons]
        exact Or.inr hx
    · rw [if_neg h0]
      simp only [List.map_cons, List.mem_cons]
      rcases hx with hx | hx
      · exact Or.inl hx
      · exact Or.inr (dictInsert_key_mono rest k v x hx)

/-!
Analysis of the collision resolution loop. The loop generates a sequence of
pairwise distinct candidate keys, so at most the size of the seen set plus
one iterations are ever needed.
-/

/-- Candidate key after j bumps of the synthetic server_id slot. -/
def bumpTag (k : Key) (idx : Nat) (fv : Nat) (j : Nat) : Key :=
  ⟨k.t, k.tags.set idx (toString (fv + j))⟩

/-- Candidate key after j bumps of the timestamp. -/
def bumpTime (k : Key) (j : Nat) : Key :=
  ⟨k.t + j, k.tags⟩

theorem bumpTag_inj {k : Key} {idx : Nat} (hidx : idx < k.tags.length) (fv : Nat) :
    Function.Injective (bumpTag k idx fv) := by
  intro i j hij
  have htags := congrArg Key.tags hij
  simp only [bumpTag] at htags
  have hi : (k.tags.set idx (toString (fv + i)))[idx]? = some (toString (fv + i)) :=
    List.getElem?_set_self (by simpa using hidx)
  have hj : (k.tags.set idx (toString (fv + j)))[idx]? = some (toString (fv + j)) :=
    List.getElem?_set_self (by simpa using hidx)
  rw [htags, hj] at hi
  have := natToString_inj (Option.some.inj hi).symm
  omega

theorem bumpTime_inj (k : Key) : Function.Injective (bumpTime k) := by
  intro i j hij
  have ht := congrArg Key.t hij
  simp only [bumpTime] at ht
  omega

theorem bumpTag_zero {k : Key} {idx : Nat} {fv : Nat}
    (hslot : k.tags[idx]? = some (toString fv)) : bumpTag k idx fv 0 = k := by
  unfold bumpTag
  rw [Nat.add_zero, set_of_getElem?_eq _ _ _ hslot]

theorem bumpTime_zero (k : Key) : bumpTime k 0 = k := by
  simp [bumpTime]

theorem bumpTag_shift (k : Key) (idx : Nat) (fv j : Nat) :
    bumpTag ⟨k.t, k.tags.set idx (toString (fv + 1))⟩ idx (fv + 1) j =
      bumpTag k idx fv (j + 1) := by
  unfold bumpTag
  simp only [List.set_set]
  rw [show fv + 1 + j = fv + (j + 1) from by omega]

theorem bumpTime_shift (k : Key) (j : Nat) :
    bumpTime ⟨k.t + 1, k.tags⟩ j = bumpTime k (j + 1) := by
  unfold bumpTime
  simp only [Key.mk.injEq, and_true]
  push_cast
  ring

theorem resolveLoop_ok_not_mem (m : String) (seen : List Key) :
    ∀ (fuel : Nat) (k : Key) (fake : Option (Nat × Nat)) (k' : Key) (fo : Option Nat),
      resolveLoop m seen fuel k fake = .ok (k', fo) → k' ∉ seen := by
  intro fuel
  induction fuel with
  | zero => intro k fake k' fo h; simp [resolveLoop] at h
  | succ f ih =>
    intro k fake k' fo h
    simp only [resolveLoop] at h
    by_cases hk : k ∈ seen
    · rw [if_pos hk] at h
      rcases fake with _ | ⟨idx, fv⟩
      · by_cases hm : inNoShiftSet m
        · rw [if_pos hm] at h; exact absurd h (by simp)
        · rw [if_neg hm] at h; exact ih _ _ _ _ h
      · exact ih _ _ _ _ h
    · rw [if_neg hk] at h
      have h2 := Except.ok.inj h
      have h3 : k = k' := congrArg Prod.fst h2
      rw [← h3]; exact hk

theorem resolveLoop_noShift_t (m : String) (seen : List Key) (hm : inNoShiftSet m = true) :
    ∀ (fuel : Nat) (k : Key) (fake : Option (Nat × Nat)) (k' : Key) (fo : Option Nat),
      resolveLoop m seen fuel k fake = .ok (k', fo) → k'.t = k.t := by
  intro fuel
  induction fuel with
  | zero => intro k fake k' fo h; simp [resolveLoop] at h
  | succ f ih =>
    intro k fake k' fo h
    simp only [resolveLoop] at h
    by_cases hk : k ∈ seen
    · rw [if_pos hk] at h
      rcases fake with _ | ⟨idx, fv⟩
      · rw [if_pos hm] at h; exact absurd h (by simp)
      · have h5 := ih _ _ _ _ h
        simpa using h5
    · rw [if_neg hk] at h
      have h2 := Except.ok.inj h
      have h3 : k = k' := congrArg Prod.fst h2
      rw [← h3]

theorem resolveLoop_error_shape (m : String) (seen : List Key) :
    ∀ (fuel : Nat) (k : Key) (fake : Option (Nat × Nat)) (e : ConvError),
      resolveLoop m seen fuel k fake = .error e →
      e = .fuelExhausted ∨ (e = .unresolvableCollision m ∧ inNoShiftSet m = true) := by
  intro fuel
  induction fuel with
  | zero =>
    intro k fake e h
    simp only [resolveLoop, Except.error.injEq] at h
    exact Or.inl h.symm
  | succ f ih =>
    intro k fake e h
    simp only [resolveLoop] at h
    by_cases hk : k ∈ seen
    · rw [if_pos hk] at h
      rcases fake with _ | ⟨idx, fv⟩
      · by_cases hm : inNoShiftSet m
        · rw [if_pos hm] at h
          have := Except.error.inj h
          exact Or.inr ⟨this.symm, hm⟩
        · rw [if_neg hm] at h; exact ih _ _ _ h
      · exact ih _ _ _ h
    · rw [if_neg hk] at h
      exact absurd h (by simp)

theorem resolveLoop_fake_exhausted_mem (m : String) (seen : List Key) (idx : Nat) :
    ∀ (fuel : Nat) (k : Key) (fv : Nat),
      idx < k.tags.length → k.tags[idx]? = some (toString fv) →
      resolveLoop m seen fuel k (some (idx, fv)) = .error .fuelExhausted →
      ∀ j < fuel, bumpTag k idx fv j ∈ seen := by
  intro fuel
  induction fuel with
  | zero => intro k fv _ _ _ j hj; omega
  | succ f ih =>
    intro k fv hidx hslot h j hj
    simp only [resolveLoop] at h
    by_cases hk : k ∈ seen
    · rw [if_pos hk] at h
      rcases j with _ | j'
      · rw [bumpTag_zero hslot]; exact hk
      · have hidx1 : idx < (k.tags.set idx (toString (fv + 1))).length := by
          simpa using hidx
        have hslot1 : (k.tags.set idx (toString (fv + 1)))[idx]? =
            some (toString (fv + 1)) := List.getElem?_set_self (by simpa using hidx)
        have hmem := ih ⟨k.t, k.tags.set idx (toString (fv + 1))⟩ (fv + 1)
          hidx1 hslot1 h j' (by omega)
        rw [bumpTag_shift k idx fv j'] at hmem
        exact hmem
    · rw [if_neg hk] at h
      exact absurd h (by simp)

theorem resolveLoop_fake_no_exhaust (m : String) (seen : List Key) (idx : Nat)
    (k : Key) (fv : Nat) (hidx : idx < k.tags.length)
    (hslot : k.tags[idx]? = some (toString fv)) :
    resolveLoop m seen (seen.length + 1) k (some (idx, fv)) ≠ .error .fuelExhausted := by
  intro h
  have hmem := resolveLoop_fake_exhausted_mem m seen idx (seen.length + 1) k fv hidx hslot h
  have hnd : ((List.range (seen.length + 1)).map (bumpTag k idx fv)).Nodup :=
    (List.nodup_range _).map (bumpTag_inj hidx fv)
  have hsub : ∀ x ∈ (List.range (seen.length + 1)).map (bumpTag k idx fv), x ∈ seen := by
    intro x hx
    rcases List.mem_map.mp hx with ⟨j, hj, rfl⟩
    exact hmem j (List.mem_range.mp hj)
  have := nodup_subset_length hnd hsub
  simp only [List.length_map, List.length_range] at this
  omega

theorem resolveLoop_time_exhausted_mem (m : String) (seen : List Key) :
    ∀ (fuel : Nat) (k : Key),
      resolveLoop m seen fuel k none = .error .fuelExhausted →
      ∀ j < fuel, bumpTime k j ∈ seen := by
  intro fuel
  induction fuel with
  | zero => intro k _ j hj; omega
  | succ f ih =>
    intro k h j hj
    simp only [resolveLoop] at h
    by_cases hk : k ∈ seen
    · rw [if_pos hk] at h
      by_cases hm : inNoShiftSet m
      · rw [if_pos hm] at h
        exact absurd (Except.error.inj h) (by simp)
      · rw [if_neg hm] at h
        rcases j with _ | j'
        · rw [bumpTime_zero]; exact hk
        · have hmem := ih ⟨k.t + 1, k.tags⟩ h j' (by omega)
          rw [bumpTime_shift k j'] at hmem
          exact hmem
    · rw [if_neg hk] at h
      exact absurd h (by simp)

theorem resolveLoop_time_no_exhaust (m : String) (seen : List Key) (k : Key) :
    resolveLoop m seen (seen.length + 1) k none ≠ .error .fuelExhausted := by
  intro h
  have hmem := resolveLoop_time_exhausted_mem m seen (seen.length + 1) k h
  have hnd : ((List.range (seen.length + 1)).map (bumpTime k)).Nodup :=
    (List.nodup_range _).map (bumpTime_inj k)
  have hsub : ∀ x ∈ (List.range (seen.length + 1)).map (bumpTime k), x ∈ seen := by
    intro x hx
    rcases List.mem_map.mp hx with ⟨j, hj, rfl⟩
    exact hmem j (List.mem_range.mp hj)
  have := nodup_subset_length hnd hsub
  simp only [List.length_map, List.length_range] at this
  omega

theorem resolveLoop_fake_char (m : String) (seen : List Key) (idx : Nat) :
    ∀ (fuel : Nat) (k : Key) (fv : Nat) (k' : Key) (fo : Option Nat),
      idx < k.tags.length → k.tags[idx]? = some (toString fv) →
      resolveLoop m seen fuel k (some (idx, fv)) = .ok (k', fo) →
      ∃ n, fo = some (fv + n) ∧ k' = bumpTag k idx fv n ∧ k' ∉ seen ∧
        ∀ j < n, bumpTag k idx fv j ∈ seen := by
  intro fuel
  induction fuel with
  | zero => intro k fv k' fo _ _ h; simp [resolveLoop] at h
  | succ f ih =>
    intro k fv k' fo hidx hslot h
    simp only [resolveLoop] at h
    by_cases hk : k ∈ seen
    · rw [if_pos hk] at h
      have hidx1 : idx < (k.tags.set idx (toString (fv + 1))).length := by
        simpa using hidx
      have hslot1 : (k.tags.set idx (toString (fv + 1)))[idx]? =
          some (toString (fv + 1)) := List.getElem?_set_self (by simpa using hidx)
      rcases ih ⟨k.t, k.tags.set idx (toString (fv + 1))⟩ (fv + 1) k' fo
        hidx1 hslot1 h with ⟨n1, hfo, hk', hnot, hall⟩
      refine ⟨n1 + 1, ?_, ?_, hnot, ?_⟩
      · rw [hfo]; congr 1; omega
      · rw [hk', bumpTag_shift]
      · intro j hj
        rcases j with _ | j'
        · rw [bumpTag_zero hslot]; exact hk
        · have := hall j' (by omega)
          rw [bumpTag_shift k idx fv j'] at this
          exact this
    · rw [if_neg hk] at h
      have h2 := Except.ok.inj h
      have h3 : k = k' := congrArg Prod.fst h2
      have h4 : (some (idx, fv)).map (fun p => p.2) = fo := congrArg Prod.snd h2
      refine ⟨0, ?_, ?_, ?_, by omega⟩
      · rw [← h4]; simp
      · rw [← h3, bumpTag_zero hslot]
      · rw [← h3]; exact hk

theorem resolveLoop_time_char (m : String) (seen : List Key) :
    ∀ (fuel : Nat) (k : Key) (k' : Key) (fo : Option Nat),
      resolveLoop m seen fuel k none = .ok (k', fo) →
      ∃ n, fo = none ∧ k' = bumpTime k n ∧ k' ∉ seen ∧
        ∀ j < n, bumpTime k j ∈ seen := by
  intro fuel
  induction fuel with
  | zero => intro k k' fo h; simp [resolveLoop] at h
  | succ f ih =>
    intro k k' fo h
    simp only [resolveLoop] at h
    by_cases hk : k ∈ seen
    · rw [if_pos hk] at h
      by_cases hm : inNoShiftSet m
      · rw [if_pos hm] at h; exact absurd h (by simp)
      · rw [if_neg hm] at h
        rcases ih ⟨k.t + 1, k.tags⟩ k' fo h with ⟨n1, hfo, hk', hnot, hall⟩
        refine ⟨n1 + 1, hfo, ?_, hnot, ?_⟩
        · rw [hk', bumpTime_shift]
        · intro j hj
          rcases j with _ | j'
          · rw [bumpTime_zero]; exact hk
          · have := hall j' (by omega)
            rw [bumpTime_shift k j'] at this
            exact this
    · rw [if_neg hk] at h
      have h2 := Except.ok.inj h
      have h3 : k = k' := congrArg Prod.fst h2
      have h4 : (none : Option (Nat × Nat)).map (fun p => p.2) = fo := congrArg Prod.snd h2
      refine ⟨0, ?_, ?_, ?_, by omega⟩
      · rw [← h4]; rfl
      · rw [← h3, bumpTime_zero]
      · rw [← h3]; exact hk

/-!
Lemmas about the key building phase.
-/

theorem buildTagVals_error_shape (m : String) (pt : RawPoint) :
    ∀ (tks vals : List String) (fake : Option (Nat × Nat)) (e : ConvError),
      buildTagVals m pt tks vals fake = .error e → ∃ tk, e = .missingDeclaredTag tk := by
  intro tks
  induction tks with
  | nil => intro vals fake e h; simp [buildTagVals] at h
  | cons tk rest ih =>
    intro vals fake e h
    cases hl : pt.kvs.lookup tk with
    | some v =>
      simp only [buildTagVals, hl] at h
      exact ih _ _ _ h
    | none =>
      simp only [buildTagVals, hl] at h
      split_ifs at h with hc
      · exact ⟨tk, (Except.error.inj h).symm⟩
      · exact ih _ _ _ h

/-- Invariant carried by the synthetic slot: its value is 1 at build time
and its index points at the string "1" inside the built tag values. -/
def goodFake (fake : Option (Nat × Nat)) (vals : List String) : Prop :=
  ∀ i v, fake = some (i, v) → v = 1 ∧ i < vals.length ∧ vals[i]? = some "1"

theorem goodFake_append {fake : Option (Nat × Nat)} {vals : List String}
    (h : goodFake fake vals) (x : String) : goodFake fake (vals ++ [x]) := by
  intro i v hiv
  rcases h i v hiv with ⟨h1, h2, h3⟩
  refine ⟨h1, by simp only [List.length_append, List.length_singleton]; omega, ?_⟩
  rw [List.getElem?_append_left h2]
  exact h3

theorem buildTagVals_good (m : String) (pt : RawPoint) :
    ∀ (tks vals0 : List String) (fake0 : Option (Nat × Nat)), goodFake fake0 vals0 →
      ∀ (vals : List String) (fake : Option (Nat × Nat)),
        buildTagVals m pt tks vals0 fake0 = .ok (vals, fake) → goodFake fake vals := by
  intro tks
  induction tks with
  | nil =>
    intro vals0 fake0 hg vals fake h
    simp only [buildTagVals] at h
    have h2 := Except.ok.inj h
    injection h2 with h3 h4
    rw [← h3, ← h4]
    exact hg
  | cons tk rest ih =>
    intro vals0 fake0 hg vals fake h
    cases hl : pt.kvs.lookup tk with
    | some v =>
      simp only [buildTagVals, hl] at h
      exact ih _ _ (goodFake_append hg _) _ _ h
    | none =>
      simp only [buildTagVals, hl] at h
      split_ifs at h with hc
      refine ih _ _ ?_ _ _ h
      intro i v hiv
      have h5 := Option.some.inj hiv
      injection h5 with h6 h7
      refine ⟨h7.symm, ?_, ?_⟩
      · rw [← h6]
        simp only [List.length_append, List.length_singleton]
        omega
      · rw [← h6]
        exact List.getElem?_concat_length vals0 "1"

theorem buildTagVals_fake_mem (m : String) (pt : RawPoint) :
    ∀ (tks vals0 : List String) (fake0 : Option (Nat × Nat))
      (vals : List String) (fake : Option (Nat × Nat)),
      buildTagVals m pt tks vals0 fake0 = .ok (vals, fake) → fake ≠ fake0 →
      "server_id" ∈ tks := by
  intro tks
  induction tks with
  | nil =>
    intro vals0 fake0 vals fake h hne
    simp only [buildTagVals] at h
    have h2 := Except.ok.inj h
    injection h2 with h3 h4
    exact absurd h4.symm hne
  | cons tk rest ih =>
    intro vals0 fake0 vals fake h hne
    cases hl : pt.kvs.lookup tk with
    | some v =>
      simp only [buildTagVals, hl] at h
      exact List.mem_cons_of_mem _ (ih _ _ _ _ h hne)
    | none =>
      simp only [buildTagVals, hl] at h
      split_ifs at h with hc
      push_neg at hc
      rw [hc.1]
      exact List.mem_cons_self _ _

/-!
Lemmas about the classification phase.
-/

theorem classify_error_shape (m : String) (tks : List String) (fks : List (String × FType)) :
    ∀ (kvs : List (String × Val)) (tags : List (String × String))
      (fields : List (String × FieldVal)) (e : ConvError),
      classify m tks fks kvs tags fields = .error e →
      (∃ k, e = .typeCoercion k) ∨ (∃ k, e = .unclassifiableKey k) := by
  intro kvs
  induction kvs with
  | nil => intro tags fields e h; simp [classify] at h
  | cons kv rest ih =>
    obtain ⟨k, v⟩ := kv
    intro tags fields e h
    simp only [classify] at h
    split_ifs at h with h1 h2 h3
    · exact ih _ _ _ h
    · exact ih _ _ _ h
    · exact ih _ _ _ h
    · cases hl : fks.lookup (normKey m k) with
      | none =>
        simp only [hl] at h
        exact Or.inr ⟨_, (Except.error.inj h).symm⟩
      | some ty =>
        simp only [hl] at h
        cases hc : coerce ty v with
        | none =>
          simp only [hc] at h
          exact Or.inl ⟨_, (Except.error.inj h).symm⟩
        | some fv =>
          simp only [hc] at h
          exact ih _ _ _ h

theorem classify_key_mono (m : String) (tks : List String) (fks : List (String × FType)) :
    ∀ (kvs : List (String × Val)) (tags0 : List (String × String))
      (f0 : List (String × FieldVal)) (tags : List (String × String))
      (fields : List (String × FieldVal)),
      classify m tks fks kvs tags0 f0 = .ok (tags, fields) →
      (∀ x ∈ tags0.map Prod.fst, x ∈ tags.map Prod.fst) ∧
      (∀ x ∈ f0.map Prod.fst, x ∈ fields.map Prod.fst) := by
  intro kvs
  induction kvs with
  | nil =>
    intro tags0 f0 tags fields h
    simp only [classify] at h
    have h2 := Except.ok.inj h
    injection h2 with h3 h4
    rw [← h3, ← h4]
    exact ⟨fun x hx => hx, fun x hx => hx⟩
  | cons kv rest ih =>
    obtain ⟨k, v⟩ := kv
    intro tags0 f0 tags fields h
    simp only [classify] at h
    split_ifs at h with h1 h2 h3
    · exact ih _ _ _ _ h
    · exact ih _ _ _ _ h
    · have hrec := ih _ _ _ _ h
      refine ⟨fun x hx => hrec.1 x (dictInsert_key_mono tags0 _ _ x hx), hrec.2⟩
    · cases hl : fks.lookup (normKey m k) with
      | none => simp only [hl] at h; exact Except.noConfusion h
      | some ty =>
        simp only [hl] at h
        cases hc : coerce ty v with
        | none => simp only [hc] at h; exact Except.noConfusion h
        | some fv =>
          simp only [hc] at h
          have hrec := ih _ _ _ _ h
          refine ⟨hrec.1, fun x hx => hrec.2 x (dictInsert_key_mono f0 _ _ x hx)⟩

theorem classify_keys_inv (m : String) (tks : List String) (fks : List (String × FType)) :
    ∀ (kvs : List (String × Val)) (tags0 : List (String × String))
      (f0 : List (String × FieldVal)) (tags : List (String × String))
      (fields : List (String × FieldVal)),
      (∀ p ∈ tags0, p.1 ∈ tks) → (∀ p ∈ f0, p.1 ∉ tks) →
      classify m tks fks kvs tags0 f0 = .ok (tags, fields) →
      (∀ p ∈ tags, p.1 ∈ tks) ∧ (∀ p ∈ fields, p.1 ∉ tks) := by
  intro kvs
  induction kvs with
  | nil =>
    intro tags0 f0 tags fields ht hf h
    simp only [classify] at h
    have h2 := Except.ok.inj h
    injection h2 with h3 h4
    rw [← h3, ← h4]
    exact ⟨ht, hf⟩
  | cons kv rest ih =>
    obtain ⟨k, v⟩ := kv
    intro tags0 f0 tags fields ht hf h
    simp only [classify] at h
    split_ifs at h with h1 h2 h3
    · exact ih _ _ _ _ ht hf h
    · exact ih _ _ _ _ ht hf h
    · refine ih _ _ _ _ ?_ hf h
      intro p hp
      rcases dictInsert_mem tags0 _ _ p hp with hp1 | hp1
      · rw [hp1]; exact h3
      · exact ht p hp1
    · cases hl : fks.lookup (normKey m k) with
      | none => simp only [hl] at h; exact Except.noConfusion h
      | some ty =>
        simp only [hl] at h
        cases hc : coerce ty v with
        | none => simp only [hc] at h; exact Except.noConfusion h
        | some fv =>
          simp only [hc] at h
          refine ih _ _ _ _ ht ?_ h
          intro p hp
          rcases dictInsert_mem f0 _ _ p hp with hp1 | hp1
          · rw [hp1]; exact h3
          · exact hf p hp1

theorem classify_place (m : String) (tks : List String) (fks : List (String × FType)) :
    ∀ (kvs : List (String × Val)) (tags0 : List (String × String))
      (f0 : List (String × FieldVal)) (tags : List (String × String))
      (fields : List (String × FieldVal)),
      classify m tks fks kvs tags0 f0 = .ok (tags, fields) →
      ∀ kv ∈ kvs, kv.1 ≠ "time" → kv.2 ≠ Val.vNull →
        normKey m kv.1 ∈ tags.map Prod.fst ∨ normKey m kv.1 ∈ fields.map Prod.fst := by
  intro kvs
  induction kvs with
  | nil => intro tags0 f0 tags fields _ kv hmem; exact absurd hmem (by simp)
  | cons kv0 rest ih =>
    obtain ⟨k, v⟩ := kv0
    intro tags0 f0 tags fields h kv hmem hktime hknull
    simp only [classify] at h
    rcases List.mem_cons.mp hmem with rfl | hmem2
    · rw [if_neg hktime, if_neg hknull] at h
      by_cases h3 : normKey m k ∈ tks
      · rw [if_pos h3] at h
        left
        have hmono := (classify_key_mono m tks fks rest _ _ _ _ h).1
        exact hmono _ (dictInsert_key_mem tags0 (normKey m k) (valStr v))
      · rw [if_neg h3] at h
        cases hl : fks.lookup (normKey m k) with
        | none => simp only [hl] at h; exact Except.noConfusion h
        | some ty =>
          simp only [hl] at h
          cases hc : coerce ty v with
          | none => simp only [hc] at h; exact Except.noConfusion h
          | some fv =>
            simp only [hc] at h
            right
            have hmono := (classify_key_mono m tks fks rest _ _ _ _ h).2
            exact hmono _ (dictInsert_key_mem f0 (normKey m k) fv)
    · split_ifs at h with h1 h2 h3
      · exact ih _ _ _ _ h kv hmem2 hktime hknull
      · exact ih _ _ _ _ h kv hmem2 hktime hknull
      · exact ih _ _ _ _ h kv hmem2 hktime hknull
      · cases hl : fks.lookup (normKey m k) with
        | none => simp only [hl] at h; exact Except.noConfusion h
        | some ty =>
          simp only [hl] at h
          cases hc : coerce ty v with
          | none => simp only [hc] at h; exact Except.noConfusion h
          | some fv =>
            simp only [hc] at h
            exact ih _ _ _ _ h kv hmem2 hktime hknull

theorem classify_lookup_preserve (m : String) (tks : List String)
    (fks : List (String × FType)) :
    ∀ (kvs : List (String × Val)) (tags0 : List (String × String))
      (f0 : List (String × FieldVal)) (tags : List (String × String))
      (fields : List (String × FieldVal)),
      (∀ kv ∈ kvs, kv.2 ≠ Val.vNull → normKey m kv.1 ≠ "server_id") →
      classify m tks fks kvs tags0 f0 = .ok (tags, fields) →
      tags.lookup "server_id" = tags0.lookup "server_id" := by
  intro kvs
  induction kvs with
  | nil =>
    intro tags0 f0 tags fields _ h
    simp only [classify] at h
    have h2 := Except.ok.inj h
    injection h2 with h3 h4
    rw [← h3]
  | cons kv0 rest ih =>
    obtain ⟨k, v⟩ := kv0
    intro tags0 f0 tags fields hno h
    have hrest : ∀ kv ∈ rest, kv.2 ≠ Val.vNull → normKey m kv.1 ≠ "server_id" :=
      fun kv hkv => hno kv (List.mem_cons_of_mem _ hkv)
    simp only [classify] at h
    split_ifs at h with h1 h2 h3
    · exact ih _ _ _ _ hrest h
    · exact ih _ _ _ _ hrest h
    · have hne : normKey m k ≠ "server_id" :=
        hno (k, v) (List.mem_cons_self _ _) h2
      rw [ih _ _ _ _ hrest h, dictInsert_lookup,
        if_neg (fun hc => hne hc.symm)]
    · cases hl : fks.lookup (normKey m k) with
      | none => simp only [hl] at h; exact Except.noConfusion h
      | some ty =>
        simp only [hl] at h
        cases hc : coerce ty v with
        | none => simp only [hc] at h; exact Except.noConfusion h
        | some fv =>
          simp only [hc] at h
          exact ih _ _ _ _ hrest h

/-!
Lemmas about the per point conversion and the stream conversion.
-/

theorem convertPoint_not_exhaust (m : String) (tks : List String)
    (fks : List (String × FType)) (seen : List Key) (pt : RawPoint) :
    convertPoint m tks fks seen pt ≠ .error .fuelExhausted := by
  intro h
  simp only [convertPoint] at h
  cases hb : buildTagVals m pt tks [] none with
  | error e =>
    simp only [hb] at h
    rcases buildTagVals_error_shape m pt _ _ _ _ hb with ⟨tk, rfl⟩
    simp at h
  | ok p =>
    obtain ⟨vals, fake⟩ := p
    simp only [hb] at h
    cases hr : resolveLoop m seen (seen.length + 1) ⟨pt.time, vals⟩ fake with
    | error e =>
      simp only [hr] at h
      have he := Except.error.inj h
      subst he
      cases fake with
      | none => exact resolveLoop_time_no_exhaust m seen _ hr
      | some p2 =>
        obtain ⟨idx, fv⟩ := p2
        have hg := buildTagVals_good m pt tks [] none
          (by intro i v hiv; simp at hiv) vals _ hb
        rcases hg idx fv rfl with ⟨hv1, hidx, hslot⟩
        refine resolveLoop_fake_no_exhaust m seen idx ⟨pt.time, vals⟩ fv ?_ ?_ hr
        · simpa using hidx
        · have h1 : ("1" : String) = toString (1 : Nat) := by decide
          rw [hv1]
          simpa [← h1] using hslot
    | ok p2 =>
      obtain ⟨key, fv⟩ := p2
      simp only [hr] at h
      cases hc : classify m tks fks pt.kvs (initTags fv) [] with
      | error e =>
        simp only [hc] at h
        have he := Except.error.inj h
        rcases classify_error_shape m tks fks _ _ _ _ hc with ⟨k, rfl⟩ | ⟨k, rfl⟩ <;>
          simp at he
      | ok p3 =>
        obtain ⟨tags, fields⟩ := p3
        simp only [hc] at h
        exact Except.noConfusion h

theorem convertPoint_ok_shape (m : String) (tks : List String)
    (fks : List (String × FType)) (seen : List Key) (pt : RawPoint)
    (key : Key) (o : OutPoint) :
    convertPoint m tks fks seen pt = .ok (key, o) →
    key ∉ seen ∧ o.time = key.t ∧ o.measurement = m := by
  intro h
  simp only [convertPoint] at h
  cases hb : buildTagVals m pt tks [] none with
  | error e => simp only [hb] at h; exact Except.noConfusion h
  | ok p =>
    obtain ⟨vals, fake⟩ := p
    simp only [hb] at h
    cases hr : resolveLoop m seen (seen.length + 1) ⟨pt.time, vals⟩ fake with
    | error e => simp only [hr] at h; exact Except.noConfusion h
    | ok p2 =>
      obtain ⟨key2, fv⟩ := p2
      simp only [hr] at h
      cases hc : classify m tks fks pt.kvs (initTags fv) [] with
      | error e => simp only [hc] at h; exact Except.noConfusion h
      | ok p3 =>
        obtain ⟨tags, fields⟩ := p3
        simp only [hc] at h
        have h2 := Except.ok.inj h
        injection h2 with h3 h4
        subst h3
        refine ⟨resolveLoop_ok_not_mem m seen _ _ _ _ _ hr, ?_, ?_⟩
        · rw [← h4]
        · rw [← h4]

theorem convertGo_not_exhaust (m : String) (tks : List String)
    (fks : List (String × FType)) :
    ∀ (pts : List RawPoint) (seen : List Key),
      convertGo m tks fks pts seen ≠ .error .fuelExhausted := by
  intro pts
  induction pts with
  | nil => intro seen h; simp [convertGo] at h
  | cons pt rest ih =>
    intro seen h
    simp only [convertGo] at h
    cases hp : convertPoint m tks fks seen pt with
    | error e =>
      simp only [hp] at h
      have he := Except.error.inj h
      exact convertPoint_not_exhaust m tks fks seen pt (he ▸ hp)
    | ok p =>
      obtain ⟨key, o⟩ := p
      simp only [hp] at h
      cases hg : convertGo m tks fks rest (key :: seen) with
      | error e =>
        simp only [hg] at h
        exact ih _ ((Except.error.inj h) ▸ hg)
      | ok l => simp only [hg] at h; exact Except.noConfusion h

theorem convertGo_keys (m : String) (tks : List String) (fks : List (String × FType)) :
    ∀ (pts : List RawPoint) (seen : List Key) (l : List (Key × OutPoint)),
      convertGo m tks fks pts seen = .ok l →
      (l.map Prod.fst).Nodup ∧ (∀ kk ∈ l.map Prod.fst, kk ∉ seen) ∧
      (∀ p ∈ l, p.2.time = p.1.t) := by
  intro pts
  induction pts with
  | nil =>
    intro seen l h
    simp only [convertGo] at h
    have h2 := Except.ok.inj h
    rw [← h2]
    exact ⟨List.nodup_nil, by simp, by simp⟩
  | cons pt rest ih =>
    intro seen l h
    simp only [convertGo] at h
    cases hp : convertPoint m tks fks seen pt with
    | error e => simp only [hp] at h; exact Except.noConfusion h
    | ok p =>
      obtain ⟨key, o⟩ := p
      simp only [hp] at h
      cases hg : convertGo m tks fks rest (key :: seen) with
      | error e => simp only [hg] at h; exact Except.noConfusion h
      | ok l2 =>
        simp only [hg] at h
        have hl := Except.ok.inj h
        rcases ih _ _ hg with ⟨hnd, hnot, htime⟩
        rcases convertPoint_ok_shape m tks fks seen pt key o hp with ⟨hkey, htime0, _⟩
        rw [← hl]
        refine ⟨?_, ?_, ?_⟩
        · simp only [List.map_cons]
          refine List.nodup_cons.mpr ⟨?_, hnd⟩
          intro hc
          exact (hnot key hc) (List.mem_cons_self _ _)
        · intro kk hkk
          simp only [List.map_cons, List.mem_cons] at hkk
          rcases hkk with rfl | hkk
          · exact hkey
          · intro hcs
            exact hnot kk hkk (List.mem_cons_of_mem _ hcs)
        · intro p2 hp2
          rcases List.mem_cons.mp hp2 with rfl | hp2
          · exact htime0
          · exact htime p2 hp2

/-!
Claim theorems. Each claim of the specification is settled by exactly one
theorem below, with a witness instantiating it when it has hypotheses.
-/

/-- Claim C1, counterexample: the claim as stated is false. Two
client_buffer points at the same time, one carrying server_id_1 = 5 (which
normalizes to server_id and overwrites the synthetic value in the emitted
tags) and one carrying server_id = 5, are both emitted, and the dedup keys
recomputed from the emitted points (time plus looked-up tag values in
schema order) coincide. -/
theorem claim_C1_counterexample :
    (convertMeasurement "client_buffer"
        [⟨700, [("channel", .vStr "c"), ("server_id_1", .vStr "5")]⟩,
         ⟨700, [("channel", .vStr "c"), ("server_id", .vStr "5")]⟩]).map
      (fun l => l.map (outDedupKey ["channel", "server_id"])) =
    .ok [(700, [some "c", some "5"]), (700, [some "c", some "5"])] := rfl

/-- Claim C1, amended: the dedup keys committed to the internal seen set
during conversion (resolved timestamp plus series tag values) are pairwise
distinct across the whole output of one measurement, and every emitted
point carries the timestamp of its committed key. The keys recomputed from
the emitted tags need not be distinct (see the counterexample). -/
theorem claim_C1_committed_keys_distinct :
    ∀ (m : String) (pts : List RawPoint) (l : List (Key × OutPoint)),
      convertMeasurementK m pts = .ok l →
      (l.map Prod.fst).Nodup ∧ ∀ p ∈ l, p.2.time = p.1.t := by
  intro m pts l h
  simp only [convertMeasurementK] at h
  cases ht : tag_keys m with
  | none =>
    cases hf : field_keys m with
    | none => simp only [ht, hf] at h; exact Except.noConfusion h
    | some fks => simp only [ht, hf] at h; exact Except.noConfusion h
  | some tks =>
    cases hf : field_keys m with
    | none => simp only [ht, hf] at h; exact Except.noConfusion h
    | some fks =>
      simp only [ht, hf] at h
      rcases convertGo_keys m tks fks pts [] l h with ⟨hnd, _, htime⟩
      exact ⟨hnd, htime⟩

/-- Claim C1, witness for the amended theorem at a concrete input. -/
theorem claim_C1_witness :
    (([(⟨700, ["c", "1"]⟩,
        ⟨"client_buffer", 700, [("server_id", "1"), ("channel", "c")], []⟩)] :
          List (Key × OutPoint)).map Prod.fst).Nodup ∧
    ∀ p ∈ ([(⟨700, ["c", "1"]⟩,
        ⟨"client_buffer", 700, [("server_id", "1"), ("channel", "c")], []⟩)] :
          List (Key × OutPoint)), p.2.time = p.1.t :=
  claim_C1_committed_keys_distinct "client_buffer" [⟨700, [("channel", .vStr "c")]⟩]
    [(⟨700, ["c", "1"]⟩, ⟨"client_buffer", 700, [("server_id", "1"), ("channel", "c")], []⟩)]
    rfl

/-- Claim C2: a raw point missing a declared tag key makes the key build
fail with missingDeclaredTag, unless the key is server_id and the
measurement is client_buffer, video_sent or video_acked; those three
measurements declare exactly the tag keys channel and server_id, and in
the permitted case the synthetic string "1" is substituted at the
server_id position (index 1 of the tag values) and the slot is recorded
with value 1. -/
theorem claim_C2_missing_tag :
    (∀ (m : String) (pt : RawPoint) (tks : List String) (vals0 : List String)
        (fake0 : Option (Nat × Nat)) (tk : String),
        tk ∈ tks → pt.kvs.lookup tk = none →
        ¬(tk = "server_id" ∧ inNoShiftSet m = true) →
        ∃ tk2, buildTagVals m pt tks vals0 fake0 = .error (.missingDeclaredTag tk2)) ∧
    (∀ m : String, inNoShiftSet m = true → tag_keys m = some ["channel", "server_id"]) ∧
    (∀ (m : String) (pt : RawPoint) (v : Val), inNoShiftSet m = true →
        pt.kvs.lookup "channel" = some v → pt.kvs.lookup "server_id" = none →
        buildTagVals m pt ["channel", "server_id"] [] none =
          .ok ([valStr v, "1"], some (1, 1))) := by
  refine ⟨?_, ?_, ?_⟩
  · intro m pt tks
    induction tks with
    | nil => intro vals0 fake0 tk htk; exact absurd htk (by simp)
    | cons t rest ih =>
      intro vals0 fake0 tk htk hlook hcond
      cases hl : pt.kvs.lookup t with
      | some v =>
        simp only [buildTagVals, hl]
        rcases List.mem_cons.mp htk with rfl | htk2
        · rw [hl] at hlook
          exact Option.noConfusion hlook
        · exact ih _ _ tk htk2 hlook hcond
      | none =>
        simp only [buildTagVals, hl]
        by_cases hcnd : t ≠ "server_id" ∨ ¬ inNoShiftSet m
        · rw [if_pos hcnd]
          exact ⟨t, rfl⟩
        · rw [if_neg hcnd]
          have hsplit : t = "server_id" ∧ inNoShiftSet m = true := by
            push_neg at hcnd
            exact hcnd
          rcases List.mem_cons.mp htk with rfl | htk2
          · exact absurd hsplit hcond
          · exact ih _ _ tk htk2 hlook hcond
  · intro m hm
    simp only [inNoShiftSet, Bool.or_eq_true, decide_eq_true_eq] at hm
    rcases hm with (hm | hm) | hm <;> rw [hm] <;> rfl
  · intro m pt v hm h1 h2
    simp only [buildTagVals, h1, h2, List.nil_append]
    have hcnd : ¬(("server_id" : String) ≠ "server_id" ∨ ¬ inNoShiftSet m) := by
      push_neg
      exact ⟨rfl, hm⟩
    rw [if_neg hcnd]
    simp [buildTagVals]

/-- Claim C2, witness: a missing format tag on an ssim point is fatal,
and a client_buffer point with channel present and server_id absent gets
the synthetic value at the server_id slot. -/
theorem claim_C2_witness :
    (∃ tk2, buildTagVals "ssim" ⟨0, [("channel", .vStr "c")]⟩ ["channel", "format"] [] none =
        .error (.missingDeclaredTag tk2)) ∧
    buildTagVals "client_buffer" ⟨0, [("channel", .vStr "c")]⟩ ["channel", "server_id"] [] none =
      .ok ([valStr (.vStr "c"), "1"], some (1, 1)) :=
  ⟨claim_C2_missing_tag.1 "ssim" ⟨0, [("channel", .vStr "c")]⟩ ["channel", "format"] [] none
      "format" (by decide) (by decide) (by decide),
   claim_C2_missing_tag.2.2 "client_buffer" ⟨0, [("channel", .vStr "c")]⟩ (.vStr "c")
      (by decide) (by decide) (by decide)⟩

/-- Claim C3: when a candidate key with a synthetic server_id slot
collides, the loop increments the synthetic value and rewrites the slot
until the key leaves the seen set, returning exactly the first
non-colliding bump; in particular three client_buffer points with the same
time and channel and no server_id are emitted with server_id values 1, 2
and 3 and committed keys differing only in that slot. -/
theorem claim_C3_synthetic_increment :
    (∀ (m : String) (seen : List Key) (idx : Nat) (k : Key) (fv : Nat)
        (k' : Key) (fo : Option Nat),
        idx < k.tags.length → k.tags[idx]? = some (toString fv) →
        resolveLoop m seen (seen.length + 1) k (some (idx, fv)) = .ok (k', fo) →
        ∃ n, fo = some (fv + n) ∧ k' = bumpTag k idx fv n ∧ k' ∉ seen ∧
          ∀ j < n, bumpTag k idx fv j ∈ seen) ∧
    convertMeasurementK "client_buffer"
        [⟨700, [("channel", .vStr "c")]⟩, ⟨700, [("channel", .vStr "c")]⟩,
         ⟨700, [("channel", .vStr "c")]⟩] =
      .ok [(⟨700, ["c", "1"]⟩,
              ⟨"client_buffer", 700, [("server_id", "1"), ("channel", "c")], []⟩),
           (⟨700, ["c", "2"]⟩,
              ⟨"client_buffer", 700, [("server_id", "2"), ("channel", "c")], []⟩),
           (⟨700, ["c", "3"]⟩,
              ⟨"client_buffer", 700, [("server_id", "3"), ("channel", "c")], []⟩)] := by
  constructor
  · intro m seen idx k fv k' fo hidx hslot h
    exact resolveLoop_fake_char m seen idx _ k fv k' fo hidx hslot h
  · rfl

/-- Claim C3, witness: one colliding client_buffer candidate is resolved
by bumping the synthetic value from 1 to 2. -/
theorem claim_C3_witness :
    ∃ n, (some 2 : Option Nat) = some (1 + n) ∧
      (⟨700, ["c", "2"]⟩ : Key) = bumpTag ⟨700, ["c", "1"]⟩ 1 1 n ∧
      (⟨700, ["c", "2"]⟩ : Key) ∉ [(⟨700, ["c", "1"]⟩ : Key)] ∧
      ∀ j < n, bumpTag ⟨700, ["c", "1"]⟩ 1 1 j ∈ [(⟨700, ["c", "1"]⟩ : Key)] :=
  claim_C3_synthetic_increment.1 "client_buffer" [⟨700, ["c", "1"]⟩] 1 ⟨700, ["c", "1"]⟩ 1
    ⟨700, ["c", "2"]⟩ (some 2) (by decide) (by decide) rfl

/-- Claim C4: for client_buffer, video_sent and video_acked the resolution
loop never changes the timestamp of a successfully resolved key, and a
collision reached with no synthetic slot is the fatal error
unresolvableCollision; in particular two identical video_sent points with
server_id present abort the whole conversion with that error. -/
theorem claim_C4_no_shift_fatal :
    (∀ (m : String) (seen : List Key) (fuel : Nat) (k : Key)
        (fake : Option (Nat × Nat)) (k' : Key) (fo : Option Nat),
        inNoShiftSet m = true →
        resolveLoop m seen fuel k fake = .ok (k', fo) → k'.t = k.t) ∧
    (∀ (m : String) (seen : List Key) (fuel : Nat) (k : Key),
        inNoShiftSet m = true → k ∈ seen →
        resolveLoop m seen (fuel + 1) k none = .error (.unresolvableCollision m)) ∧
    convertMeasurementK "video_sent"
        [⟨100, [("channel", .vStr "c"), ("server_id", .vStr "3")]⟩,
         ⟨100, [("channel", .vStr "c"), ("server_id", .vStr "3")]⟩] =
      .error (.unresolvableCollision "video_sent") := by
  refine ⟨?_, ?_, rfl⟩
  · intro m seen fuel k fake k' fo hm h
    exact resolveLoop_noShift_t m seen hm fuel k fake k' fo h
  · intro m seen fuel k hm hk
    simp [resolveLoop, hk, hm]

/-- Claim C4, witness: a colliding no-shift candidate with no synthetic
slot is fatal at a concrete input. -/
theorem claim_C4_witness :
    resolveLoop "video_sent" [⟨5, ["c", "3"]⟩] 1 ⟨5, ["c", "3"]⟩ none =
      .error (.unresolvableCollision "video_sent") :=
  claim_C4_no_shift_fatal.2.1 "video_sent" [⟨5, ["c", "3"]⟩] 0 ⟨5, ["c", "3"]⟩
    (by decide) (by decide)

/-- Claim C5: for any measurement outside the no-shift set, resolution of
a candidate with no synthetic slot always succeeds by advancing the
timestamp one tick at a time, returning the first non-colliding shift, and
the tag values are unchanged; in particular two identical ssim points are
both emitted, the second with its timestamp advanced by one tick, which is
the timestamp the emitted point carries. -/
theorem claim_C5_time_shift :
    (∀ (m : String) (seen : List Key) (k : Key), inNoShiftSet m = false →
        ∃ n : Nat, resolveLoop m seen (seen.length + 1) k none =
            .ok (⟨k.t + (n : Int), k.tags⟩, none) ∧
          (⟨k.t + (n : Int), k.tags⟩ : Key) ∉ seen ∧
          ∀ j : Nat, j < n → (⟨k.t + (j : Int), k.tags⟩ : Key) ∈ seen) ∧
    convertMeasurementK "ssim"
        [⟨500, [("channel", .vStr "c"), ("format", .vStr "f")]⟩,
         ⟨500, [("channel", .vStr "c"), ("format", .vStr "f")]⟩] =
      .ok [(⟨500, ["c", "f"]⟩, ⟨"ssim", 500, [("channel", "c"), ("format", "f")], []⟩),
           (⟨501, ["c", "f"]⟩, ⟨"ssim", 501, [("channel", "c"), ("format", "f")], []⟩)] := by
  constructor
  · intro m seen k hm
    cases hres : resolveLoop m seen (seen.length + 1) k none with
    | error e =>
      rcases resolveLoop_error_shape m seen _ _ _ _ hres with he | ⟨he, hm2⟩
      · rw [he] at hres
        exact absurd hres (resolveLoop_time_no_exhaust m seen k)
      · rw [hm] at hm2
        exact absurd hm2 (by decide)
    | ok p =>
      obtain ⟨k', fo⟩ := p
      rcases resolveLoop_time_char m seen _ k k' fo hres with ⟨n, hfo, hk', hnot, hall⟩
      subst hfo
      subst hk'
      refine ⟨n, ?_, hnot, fun j hj => hall j hj⟩
      rfl
  · rfl

/-- Claim C5, witness for the general part at a concrete input. -/
theorem claim_C5_witness :
    ∃ n : Nat, resolveLoop "ssim" [] 1 ⟨9, ["c"]⟩ none =
        .ok (⟨9 + (n : Int), ["c"]⟩, none) ∧
      (⟨9 + (n : Int), ["c"]⟩ : Key) ∉ ([] : List Key) ∧
      ∀ j : Nat, j < n → (⟨9 + (j : Int), ["c"]⟩ : Key) ∈ ([] : List Key) :=
  claim_C5_time_shift.1 "ssim" [] ⟨9, ["c"]⟩ (by decide)

/-- Claim C6: key normalization strips a trailing _1 for every measurement
except server_info, where keys are kept verbatim; concretely a video_sent
point with cwnd_1 = 5 is emitted with field cwnd, while a server_info
point keeps its declared field server_id_1. -/
theorem claim_C6_suffix_strip :
    (∀ (m k : String), m ≠ "server_info" → k.takeRight 2 = "_1" →
        normKey m k = k.dropRight 2) ∧
    (∀ k : String, normKey "server_info" k = k) ∧
    convertMeasurementK "video_sent"
        [⟨100, [("channel", .vStr "c"), ("server_id", .vStr "3"), ("cwnd_1", .vInt 5)]⟩] =
      .ok [(⟨100, ["c", "3"]⟩,
        ⟨"video_sent", 100, [("channel", "c"), ("server_id", "3")],
          [("cwnd", .fInt 5)]⟩)] ∧
    convertMeasurementK "server_info"
        [⟨100, [("server_id", .vStr "s"), ("server_id_1", .vInt 3)]⟩] =
      .ok [(⟨100, ["s"]⟩,
        ⟨"server_info", 100, [("server_id", "s")], [("server_id_1", .fInt 3)]⟩)] := by
  refine ⟨?_, ?_, rfl, rfl⟩
  · intro m k hm hk
    unfold normKey
    rw [if_pos ⟨hm, hk⟩]
  · intro k
    unfold normKey
    simp

/-- Claim C6, witness: cwnd_1 normalizes to cwnd under video_sent. -/
theorem claim_C6_witness :
    normKey "video_sent" "cwnd_1" = "cwnd_1".dropRight 2 :=
  claim_C6_suffix_strip.1 "video_sent" "cwnd_1" (by decide) (by decide)

/-- Claim C7, counterexample: the claim as stated is false. A
client_buffer point with no server_id but with server_id_1 = 9 gets the
synthetic value 1 in its committed dedup key, yet the emitted tags map
server_id to the raw value 9: the classification loop runs after the
synthetic assignment at lines 138-139 and overwrites it, so the raw value
wins, not the synthetic one. -/
theorem claim_C7_counterexample :
    convertMeasurementK "client_buffer"
        [⟨700, [("channel", .vStr "c"), ("server_id_1", .vStr "9")]⟩] =
      .ok [(⟨700, ["c", "1"]⟩,
        ⟨"client_buffer", 700, [("server_id", "9"), ("channel", "c")], []⟩)] := rfl

/-- Claim C7, amended: for a raw point to which a synthetic server_id was
assigned, the emitted tags map server_id to the final synthetic value
provided no non-null raw key normalizes to server_id; otherwise the raw
value overwrites the synthetic one (see the counterexample). -/
theorem claim_C7_amended :
    ∀ (m : String) (tks : List String) (fks : List (String × FType)) (seen : List Key)
      (pt : RawPoint) (vals : List String) (idx : Nat) (key key2 : Key) (o : OutPoint)
      (v : Nat),
      buildTagVals m pt tks [] none = .ok (vals, some (idx, 1)) →
      resolveLoop m seen (seen.length + 1) ⟨pt.time, vals⟩ (some (idx, 1)) =
        .ok (key, some v) →
      (∀ kv ∈ pt.kvs, kv.2 ≠ Val.vNull → normKey m kv.1 ≠ "server_id") →
      convertPoint m tks fks seen pt = .ok (key2, o) →
      o.tags.lookup "server_id" = some (toString v) := by
  intro m tks fks seen pt vals idx key key2 o v hb hr hno h
  simp only [convertPoint, hb, hr] at h
  cases hc : classify m tks fks pt.kvs (initTags (some v)) [] with
  | error e => simp only [hc] at h; exact Except.noConfusion h
  | ok p =>
    obtain ⟨tags, fields⟩ := p
    simp only [hc] at h
    have h2 := Except.ok.inj h
    injection h2 with h3 h4
    have h5 : o.tags = tags := by rw [← h4]
    rw [h5]
    have h6 := classify_lookup_preserve m tks fks pt.kvs (initTags (some v)) [] tags fields
      hno hc
    rw [h6]
    simp [initTags, lookup_cons_if]

/-- Claim C7, witness for the amended theorem: with no raw key normalizing
to server_id, the synthetic value 1 survives into the emitted tags. -/
theorem claim_C7_witness :
    ([("server_id", "1"), ("channel", "c")] : List (String × String)).lookup "server_id" =
      some (toString (1 : Nat)) :=
  claim_C7_amended "client_buffer" ["channel", "server_id"] [] []
    ⟨700, [("channel", .vStr "c")]⟩ ["c", "1"] 1 ⟨700, ["c", "1"]⟩ ⟨700, ["c", "1"]⟩
    ⟨"client_buffer", 700, [("server_id", "1"), ("channel", "c")], []⟩ 1
    rfl rfl (by decide) rfl

/-- Claim C8: for every successfully converted point, every entry of the
raw point other than time with a non-null value lands, under its
normalized key, in exactly one of the emitted tags or fields; a null
valued entry is skipped by classification, and an entry whose normalized
key is neither a declared tag nor a declared field aborts classification
with unclassifiableKey. -/
theorem claim_C8_placement :
    (∀ (m : String) (tks : List String) (fks : List (String × FType)) (seen : List Key)
        (pt : RawPoint) (key : Key) (o : OutPoint),
        convertPoint m tks fks seen pt = .ok (key, o) →
        ∀ kv ∈ pt.kvs, kv.1 ≠ "time" → kv.2 ≠ Val.vNull →
          (normKey m kv.1 ∈ o.tags.map Prod.fst ∧
             normKey m kv.1 ∉ o.fields.map Prod.fst) ∨
          (normKey m kv.1 ∈ o.fields.map Prod.fst ∧
             normKey m kv.1 ∉ o.tags.map Prod.fst)) ∧
    (∀ (m : String) (tks : List String) (fks : List (String × FType)) (k : String)
        (rest : List (String × Val)) (tags : List (String × String))
        (fields : List (String × FieldVal)),
        classify m tks fks ((k, Val.vNull) :: rest) tags fields =
          classify m tks fks rest tags fields) ∧
    (∀ (m : String) (tks : List String) (fks : List (String × FType)) (k : String) (v : Val)
        (rest : List (String × Val)) (tags : List (String × String))
        (fields : List (String × FieldVal)),
        k ≠ "time" → v ≠ Val.vNull → normKey m k ∉ tks →
        fks.lookup (normKey m k) = none →
        classify m tks fks ((k, v) :: rest) tags fields =
          .error (.unclassifiableKey (normKey m k))) := by
  refine ⟨?_, ?_, ?_⟩
  · intro m tks fks seen pt key o h kv hkv h1 h2
    simp only [convertPoint] at h
    cases hb : buildTagVals m pt tks [] none with
    | error e => simp only [hb] at h; exact Except.noConfusion h
    | ok p =>
      obtain ⟨vals, fake⟩ := p
      simp only [hb] at h
      cases hr : resolveLoop m seen (seen.length + 1) ⟨pt.time, vals⟩ fake with
      | error e => simp only [hr] at h; exact Except.noConfusion h
      | ok p2 =>
        obtain ⟨key2, fv⟩ := p2
        simp only [hr] at h
        cases hc : classify m tks fks pt.kvs (initTags fv) [] with
        | error e => simp only [hc] at h; exact Except.noConfusion h
        | ok p3 =>
          obtain ⟨tags, fields⟩ := p3
          simp only [hc] at h
          have h3 := Except.ok.inj h
          injection h3 with h4 h5
          have hotags : o.tags = tags := by rw [← h5]
          have hofields : o.fields = fields := by rw [← h5]
          have htinit : ∀ p ∈ initTags fv, p.1 ∈ tks := by
            cases fake with
            | none =>
              rcases resolveLoop_time_char m seen _ _ _ _ hr with ⟨n, hfo, _, _, _⟩
              intro p hp
              rw [hfo] at hp
              simp [initTags] at hp
            | some pq =>
              have hsid : "server_id" ∈ tks :=
                buildTagVals_fake_mem m pt tks [] none vals (some pq) hb (by simp)
              intro p hp
              cases fv with
              | none => simp [initTags] at hp
              | some w =>
                simp only [initTags, List.mem_singleton] at hp
                rw [hp]
                exact hsid
          have hfinit : ∀ p ∈ ([] : List (String × FieldVal)), p.1 ∉ tks := by simp
          have hinv := classify_keys_inv m tks fks pt.kvs _ _ _ _ htinit hfinit hc
          have hplace := classify_place m tks fks pt.kvs _ _ _ _ hc kv hkv h1 h2
          rw [hotags, hofields]
          rcases hplace with hp | hp
          · left
            refine ⟨hp, ?_⟩
            intro hcon
            have ht1 : normKey m kv.1 ∈ tks := by
              rcases List.mem_map.mp hp with ⟨q2, hq2, hq21⟩
              rw [← hq21]
              exact hinv.1 q2 hq2
            rcases List.mem_map.mp hcon with ⟨q, hq, hq1⟩
            refine (hinv.2 q hq) ?_
            rw [hq1]
            exact ht1
          · right
            refine ⟨hp, ?_⟩
            intro hcon
            have ht1 : normKey m kv.1 ∉ tks := by
              rcases List.mem_map.mp hp with ⟨q2, hq2, hq21⟩
              rw [← hq21]
              exact hinv.2 q2 hq2
            rcases List.mem_map.mp hcon with ⟨q, hq, hq1⟩
            refine ht1 ?_
            rw [← hq1]
            exact hinv.1 q hq
  · intro m tks fks k rest tags fields
    simp [classify]
  · intro m tks fks k v rest tags fields h1 h2 h3 h4
    simp only [classify, if_neg h1, if_neg h2, if_neg h3, h4]

/-- Claim C8, witness: a tag entry and a field entry of a converted point
each land in exactly one of tags and fields. -/
theorem claim_C8_witness :
    ("x" ∈ ([("channel", "c")] : List (String × String)).map Prod.fst ∧
       "x" ∉ ([("x", FieldVal.fInt 2)] : List (String × FieldVal)).map Prod.fst) ∨
    ("x" ∈ ([("x", FieldVal.fInt 2)] : List (String × FieldVal)).map Prod.fst ∧
       "x" ∉ ([("channel", "c")] : List (String × String)).map Prod.fst) :=
  claim_C8_placement.1 "backlog" ["channel"] [("x", .tInt)] []
    ⟨1, [("channel", .vStr "c"), ("x", .vInt 2)]⟩ ⟨1, ["c"]⟩
    ⟨"backlog", 1, [("channel", "c")], [("x", .fInt 2)]⟩ rfl
    ("x", .vInt 2) (by decide) (by decide) (by decide)

/-- Claim C9: the collision resolution loop always terminates within one
more step than the size of the seen set, both when bumping the synthetic
slot and when shifting the timestamp, so the conversion of any finite
stream never runs out of fuel: convertMeasurement is total. -/
theorem claim_C9_terminates :
    (∀ (m : String) (seen : List Key) (idx : Nat) (k : Key) (fv : Nat),
        idx < k.tags.length → k.tags[idx]? = some (toString fv) →
        resolveLoop m seen (seen.length + 1) k (some (idx, fv)) ≠
          .error .fuelExhausted) ∧
    (∀ (m : String) (seen : List Key) (k : Key),
        resolveLoop m seen (seen.length + 1) k none ≠ .error .fuelExhausted) ∧
    (∀ (m : String) (pts : List RawPoint),
        convertMeasurement m pts ≠ .error .fuelExhausted) := by
  refine ⟨?_, resolveLoop_time_no_exhaust, ?_⟩
  · intro m seen idx k fv hidx hslot
    exact resolveLoop_fake_no_exhaust m seen idx k fv hidx hslot
  · intro m pts h
    simp only [convertMeasurement] at h
    cases hk : convertMeasurementK m pts with
    | ok l => simp only [hk, Except.map] at h; exact Except.noConfusion h
    | error e =>
      simp only [hk, Except.map] at h
      have he := Except.error.inj h
      subst he
      simp only [convertMeasurementK] at hk
      cases ht : tag_keys m with
      | none =>
        cases hf : field_keys m with
        | none => simp only [ht, hf] at hk; exact absurd (Except.error.inj hk) (by simp)
        | some fks => simp only [ht, hf] at hk; exact absurd (Except.error.inj hk) (by simp)
      | some tks =>
        cases hf : field_keys m with
        | none => simp only [ht, hf] at hk; exact absurd (Except.error.inj hk) (by simp)
        | some fks =>
          simp only [ht, hf] at hk
          exact convertGo_not_exhaust m tks fks pts [] hk

/-- Claim C9, witness for the synthetic branch at a concrete input. -/
theorem claim_C9_witness :
    resolveLoop "ssim" [] 1 ⟨3, ["1"]⟩ (some (0, 1)) ≠ .error .fuelExhausted :=
  claim_C9_terminates.1 "ssim" [] 0 ⟨3, ["1"]⟩ 1 (by decide) (by decide)

/-- Claim C10: a declared tag key present with a null value contributes
the string None to the dedup key at its position, the key counts as
present so no synthetic substitution happens, and the emitted tags omit
the key entirely because null values are skipped by classification;
concretely a client_buffer point with server_id null commits the key
(300, [c, None]) with no synthetic slot and is emitted with only the
channel tag. -/
theorem claim_C10_null_tag :
    (∀ (m : String) (pt : RawPoint) (tk : String) (rest vals : List String)
        (fake : Option (Nat × Nat)),
        pt.kvs.lookup tk = some Val.vNull →
        buildTagVals m pt (tk :: rest) vals fake =
          buildTagVals m pt rest (vals ++ ["None"]) fake) ∧
    (∀ (m : String) (tks : List String) (fks : List (String × FType)) (tk : String)
        (rest : List (String × Val)) (tags : List (String × String))
        (fields : List (String × FieldVal)),
        classify m tks fks ((tk, Val.vNull) :: rest) tags fields =
          classify m tks fks rest tags fields) ∧
    convertMeasurementK "client_buffer"
        [⟨300, [("channel", .vStr "c"), ("server_id", Val.vNull)]⟩] =
      .ok [(⟨300, ["c", "None"]⟩, ⟨"client_buffer", 300, [("channel", "c")], []⟩)] := by
  refine ⟨?_, ?_, rfl⟩
  · intro m pt tk rest vals fake h
    simp only [buildTagVals, h, valStr]
  · intro m tks fks tk rest tags fields
    simp [classify]

/-- Claim C10, witness: a null server_id on a client_buffer point appends
None to the key values and assigns no synthetic slot. -/
theorem claim_C10_witness :
    buildTagVals "client_buffer" ⟨1, [("server_id", Val.vNull)]⟩ ["server_id"] [] none =
      buildTagVals "client_buffer" ⟨1, [("server_id", Val.vNull)]⟩ [] ([] ++ ["None"]) none :=
  claim_C10_null_tag.1 "client_buffer" ⟨1, [("server_id", Val.vNull)]⟩ "server_id" [] []
    none (by decide)
